import Mathlib

set_option maxHeartbeats 1000000

/-!
Shallow embedding of the persistent segment tree and the flight-search branch
manager from `persistent.py`, together with proofs checking the repository's
specification against the code.

Conventions of the embedding:
* Leaf values live in `Option α`; `none` is Python's `None`, the "unset"
  sentinel, and `some x` is a stored value `x`.
* A Python node with `left_child = right_child = None` is the `leaf`
  constructor.  The source distinguishes leaves by `left == right`; on every
  node the source ever constructs (`_build`, `_update`) the two notions
  coincide, and the operations below also test `left = right` first, exactly
  like the source, where the constructor leaves the test open.
* Python's `//` (floor division) on the positive divisor `2` is `Int.fdiv`.
* A Python expression that raises (IndexError from list indexing or `[0]` on
  an empty list) is modelled by an `Option`-valued function returning `none`;
  the partially mutated object state at the moment an exception escapes is
  returned explicitly where a claim depends on it (`add_branch`).
* `_build` recurses forever when called with `r < l` (which happens exactly
  when the tree is constructed with `size < 1`), so its translation takes an
  explicit recursion budget (`fuel`); `none` means the budget ran out.  For
  `l ≤ r` the result is independent of any sufficient budget.
-/

/-- Node of the persistent segment tree, source class
`PersistentSegmentTreeNode`: a range `[left, right]`, an optional value and
optional children; `leaf` is the children-less shape the source creates when
`left == right`. -/
inductive PersistentSegmentTreeNode (α : Type) : Type where
  | leaf (left right : Int) (value : Option α)
  | node (left right : Int) (value : Option α)
      (left_child right_child : PersistentSegmentTreeNode α)
deriving DecidableEq

/-- Source method `PersistentSegmentTree._build`, with an explicit recursion
budget: `if l == r` make a leaf, else split at `m = (l + r) // 2` and build
both halves. -/
def _build (α : Type) : Nat → Int → Int → Option (PersistentSegmentTreeNode α)
  | 0, _, _ => none
  | fuel + 1, l, r =>
    if l = r then some (.leaf l r none)
    else
      match _build α fuel l (Int.fdiv (l + r) 2),
          _build α fuel (Int.fdiv (l + r) 2 + 1) r with
      | some lc, some rc => some (.node l r none lc rc)
      | _, _ => none

/-- Source method `PersistentSegmentTree._update`: path copying.  At a node
with `left == right` a fresh leaf carrying the value is made; otherwise the
child on the side of `idx` (compared with the midpoint) is rebuilt and the
other child is reused as is. -/
def _update {α : Type} :
    PersistentSegmentTreeNode α → Int → α → PersistentSegmentTreeNode α
  | .leaf l r _, _, value => .leaf l r (some value)
  | .node l r v lc rc, idx, value =>
    if l = r then .leaf l r (some value)
    else if idx ≤ Int.fdiv (l + r) 2 then
      .node l r v (_update lc idx value) rc
    else .node l r v lc (_update rc idx value)

/-- Source method `PersistentSegmentTree._query`: a node disjoint from
`[l, r]` contributes `[]`; a leaf that is not disjoint is inside `[l, r]`
(its range is a single point) and contributes its value, matching the
source's containment branch; an inner node that is not disjoint concatenates
both children's results (the source does this both in its containment branch
and in its fall-through branch). -/
def _query {α : Type} :
    PersistentSegmentTreeNode α → Int → Int → List (Option α)
  | .leaf nl nr v, l, r =>
    if nr < l ∨ nl > r then [] else [v]
  | .node nl nr _ lc rc, l, r =>
    if nr < l ∨ nl > r then []
    else _query lc l r ++ _query rc l r

/-- State of source class `PersistentSegmentTree`: the size and the
append-only list of version roots. -/
structure PersistentSegmentTree (α : Type) : Type where
  size : Int
  versions : List (PersistentSegmentTreeNode α)
deriving DecidableEq

/-- Python list read `xs[i]`: nonnegative `i` reads position `i`, negative
`i` reads position `i + len(xs)`, and anything outside `[-len(xs), len(xs))`
raises IndexError (`none`). -/
def pyIndex {β : Type} (xs : List β) (i : Int) : Option β :=
  if 0 ≤ i then xs[i.toNat]?
  else if 0 ≤ i + xs.length then xs[(i + xs.length).toNat]?
  else none

/-- Python list write `xs[i] = v` for a nonnegative index: in range it
replaces the element, out of range it raises IndexError (`none`). -/
def pySet {β : Type} (xs : List β) (i : Nat) (v : β) : Option (List β) :=
  if i < xs.length then some (xs.set i v) else none

/-- Source constructor `PersistentSegmentTree.__init__`: version 0 is
`_build(0, size - 1)`.  The recursion budget is explicit because the source
recursion does not terminate when `size < 1`. -/
def PersistentSegmentTree.initF (α : Type) (fuel : Nat) (size : Int) :
    Option (PersistentSegmentTree α) :=
  (_build α fuel 0 (size - 1)).map fun root => ⟨size, [root]⟩

/-- Source method `PersistentSegmentTree.update`: read `versions[version]`
(Python indexing, may raise), path-copy, append the new root, return
`len(versions) - 1`. -/
def PersistentSegmentTree.update {α : Type} (t : PersistentSegmentTree α)
    (version idx : Int) (value : α) :
    Option (PersistentSegmentTree α × Int) :=
  match pyIndex t.versions version with
  | none => none
  | some root =>
    let new_root := _update root idx value
    let versions2 := t.versions ++ [new_root]
    some (⟨t.size, versions2⟩, (versions2.length : Int) - 1)

/-- Source method `PersistentSegmentTree.query`: read `versions[version]`
(may raise) and run `_query` on it. -/
def PersistentSegmentTree.query {α : Type} (t : PersistentSegmentTree α)
    (version l r : Int) : Option (List (Option α)) :=
  (pyIndex t.versions version).map fun root => _query root l r

/-- The record `{'params': params, 'result': result}` stored by
`FlightSearchBranchManager.add_branch`. -/
structure BranchRecord (π β : Type) : Type where
  params : π
  result : β
deriving DecidableEq

/-- State of source class `FlightSearchBranchManager`: a tree of capacity
`max_branches`, the slot list `branch_params` (initially `None` repeated),
the current version cursor and the next free slot index. -/
structure FlightSearchBranchManager (π β : Type) : Type where
  tree : PersistentSegmentTree β
  branch_params : List (Option (BranchRecord π β))
  current_version : Int
  next_idx : Nat
deriving DecidableEq

/-- Source constructor `FlightSearchBranchManager.__init__`. -/
def FlightSearchBranchManager.initF (π β : Type) (fuel : Nat)
    (max_branches : Nat) : Option (FlightSearchBranchManager π β) :=
  (PersistentSegmentTree.initF β fuel max_branches).map fun t =>
    ⟨t, List.replicate max_branches none, 0, 0⟩

/-- Source method `FlightSearchBranchManager.add_branch`.  The result is the
manager state when the call finishes or when an exception escapes, paired
with `some new_version` on success and `none` on an exception.  The slot
write `branch_params[idx] = ...` happens before `tree.update` is called, so
a failing update leaves the slot already overwritten. -/
def FlightSearchBranchManager.add_branch {π β : Type}
    (m : FlightSearchBranchManager π β) (params : π) (result : β)
    (from_version : Option Int) :
    FlightSearchBranchManager π β × Option Int :=
  let idx := m.next_idx
  match pySet m.branch_params idx (some ⟨params, result⟩) with
  | none => (m, none)
  | some bp =>
    let m1 : FlightSearchBranchManager π β :=
      ⟨m.tree, bp, m.current_version, m.next_idx⟩
    let fv := from_version.getD m1.current_version
    match m1.tree.update fv (idx : Int) result with
    | none => (m1, none)
    | some (t2, nv) => (⟨t2, m1.branch_params, nv, idx + 1⟩, some nv)

/-- Source method `FlightSearchBranchManager.get_branch_result`:
`tree.query(version, idx, idx)[0]`; `[0]` on the empty list raises
(`none`), as does an invalid version inside `query`. -/
def FlightSearchBranchManager.get_branch_result {π β : Type}
    (m : FlightSearchBranchManager π β) (version idx : Int) :
    Option (Option β) :=
  (m.tree.query version idx idx).bind List.head?

/-- Source method `FlightSearchBranchManager.get_all_results`:
`tree.query(version, 0, next_idx - 1)` with the tracker's current
`next_idx`. -/
def FlightSearchBranchManager.get_all_results {π β : Type}
    (m : FlightSearchBranchManager π β) (version : Int) :
    Option (List (Option β)) :=
  m.tree.query version 0 ((m.next_idx : Int) - 1)

/-- Leaves of a node in left-to-right order, as pairs of index (the range of
a leaf is a single point, its `left`) and stored optional value.  This is the
semantic reading of a version: the indexed collection it represents. -/
def PersistentSegmentTreeNode.leaves {α : Type} :
    PersistentSegmentTreeNode α → List (Int × Option α)
  | .leaf l _ v => [(l, v)]
  | .node _ _ _ lc rc => lc.leaves ++ rc.leaves

/-- All nodes reachable from a node (the node itself included). -/
def PersistentSegmentTreeNode.subtrees {α : Type} :
    PersistentSegmentTreeNode α → List (PersistentSegmentTreeNode α)
  | .leaf l r v => [.leaf l r v]
  | .node l r v lc rc => .node l r v lc rc :: (lc.subtrees ++ rc.subtrees)

/-- Number of nodes freshly allocated by one `_update` call: one per level
of the walked root-to-leaf path, mirroring the branching of `_update`. -/
def updateCount {α : Type} : PersistentSegmentTreeNode α → Int → Nat
  | .leaf _ _ _, _ => 1
  | .node l r _ lc rc, idx =>
    if l = r then 1
    else if idx ≤ Int.fdiv (l + r) 2 then 1 + updateCount lc idx
    else 1 + updateCount rc idx

/-- The nodes freshly allocated by one `_update` call, mirroring `_update`:
the rebuilt node at each level of the walked path. -/
def newNodes {α : Type} (t : PersistentSegmentTreeNode α) (idx : Int)
    (value : α) : List (PersistentSegmentTreeNode α) :=
  match t with
  | .leaf l r _ => [.leaf l r (some value)]
  | .node l r v lc rc =>
    if l = r then [.leaf l r (some value)]
    else if idx ≤ Int.fdiv (l + r) 2 then
      .node l r v (_update lc idx value) rc :: newNodes lc idx value
    else .node l r v lc (_update rc idx value) :: newNodes rc idx value

/-- The list of integers `l, l+1, ..., r` (empty when `r < l`). -/
def intRange (l r : Int) : List Int :=
  (List.range (r + 1 - l).toNat).map fun k : Nat => l + (k : Int)

/-- The index of the leaf `_update` actually reaches: `idx` clamped into
`[l, r]`. -/
def pclamp (l r idx : Int) : Int :=
  if idx < l then l else if r < idx then r else idx

/-- The shape invariant of every node the source constructs over a range
`[l, r]`: leaves carry a single point, inner nodes have `l < r` and split at
`m = (l + r) // 2` into `[l, m]` and `[m + 1, r]`. -/
inductive IsPartition {α : Type} : Int → Int → PersistentSegmentTreeNode α → Prop where
  | leaf (l : Int) (v : Option α) : IsPartition l l (.leaf l l v)
  | node (l r : Int) (v : Option α) (lc rc : PersistentSegmentTreeNode α)
      (hlr : l < r)
      (hl : IsPartition l (Int.fdiv (l + r) 2) lc)
      (hr : IsPartition (Int.fdiv (l + r) 2 + 1) r rc) :
      IsPartition l r (.node l r v lc rc)

/-- Executable check of `IsPartition`, for evaluating the invariant on
concrete trees. -/
def partitionChk {α : Type} (l r : Int) : PersistentSegmentTreeNode α → Bool
  | .leaf a b _ => decide (a = l) && decide (b = r) && decide (l = r)
  | .node a b _ lc rc =>
    decide (a = l) && decide (b = r) && decide (l < r) &&
      partitionChk l (Int.fdiv (l + r) 2) lc &&
      partitionChk (Int.fdiv (l + r) 2 + 1) r rc

/-- Well-formedness of a tree state: every stored version root is a
partition of `[0, size - 1]`.  Holds for the freshly built tree and is
preserved by `update`. -/
def TreeWF {α : Type} (t : PersistentSegmentTree α) : Prop :=
  ∀ root ∈ t.versions, IsPartition 0 (t.size - 1) root

/-- The construction of a tree of size 0 returns nothing at every recursion
depth: the source constructor never terminates on that input. -/
def buildNeverReturns : Prop :=
  ∀ fuel : Nat, PersistentSegmentTree.initF Nat fuel 0 = none

/-- Concrete root of a freshly built size-2 tree. -/
def root2 : PersistentSegmentTreeNode Nat :=
  .node 0 1 none (.leaf 0 0 none) (.leaf 1 1 none)

/-- Concrete freshly built size-2 tree. -/
def t2 : PersistentSegmentTree Nat := ⟨2, [root2]⟩

/-- Concrete root of a freshly built size-3 tree. -/
def t3root : PersistentSegmentTreeNode Nat :=
  .node 0 2 none (.node 0 1 none (.leaf 0 0 none) (.leaf 1 1 none))
    (.leaf 2 2 none)

/-- Concrete fresh branch manager with capacity 2. -/
def mgr0 : FlightSearchBranchManager Nat Nat := ⟨t2, [none, none], 0, 0⟩

/-- Manager after one `add_branch` (slot 0, result 10, version 1). -/
def mgr1 : FlightSearchBranchManager Nat Nat :=
  (mgr0.add_branch 1 10 none).1

/-- Manager after two `add_branch` calls (slots 0 and 1, version 2). -/
def mgr2 : FlightSearchBranchManager Nat Nat :=
  (mgr1.add_branch 2 20 none).1

/-- Python floor division by 2 agrees with Euclidean division by 2. -/
theorem fdiv_two (a : Int) : Int.fdiv a 2 = a / 2 :=
  Int.fdiv_eq_ediv a (by norm_num)

/-- The midpoint of a nonempty range `[l, r]` with `l < r` lies in `[l, r)`. -/
theorem fdiv2_bounds {l r : Int} (h : l < r) :
    l ≤ Int.fdiv (l + r) 2 ∧ Int.fdiv (l + r) 2 < r := by
  rw [fdiv_two]; omega

/-- For an inverted range (`r < l`) the midpoint falls strictly below `l`. -/
theorem fdiv2_lt_left {l r : Int} (h : r < l) : Int.fdiv (l + r) 2 < l := by
  rw [fdiv_two]; omega

/-- Python list read fails exactly when the index is outside
`[-len, len)`. -/
theorem pyIndex_eq_none_iff {β : Type} (xs : List β) (i : Int) :
    pyIndex xs i = none ↔ i < -(xs.length : Int) ∨ (xs.length : Int) ≤ i := by
  unfold pyIndex
  split_ifs with h1 h2
  · rw [List.getElem?_eq_none_iff]; omega
  · rw [List.getElem?_eq_none_iff]; omega
  · simp; omega

/-- Appending versions does not change how an in-range nonnegative index
reads. -/
theorem pyIndex_append_left {β : Type} (xs ys : List β) (i : Int)
    (h0 : 0 ≤ i) (h1 : i < (xs.length : Int)) :
    pyIndex (xs ++ ys) i = pyIndex xs i := by
  unfold pyIndex
  rw [if_pos h0, if_pos h0,
    List.getElem?_append_left (show i.toNat < xs.length by omega)]

/-- Reading the position right past `xs` in `xs ++ [x]` yields `x`. -/
theorem pyIndex_append_length {β : Type} (xs : List β) (x : β) :
    pyIndex (xs ++ [x]) (xs.length : Int) = some x := by
  unfold pyIndex
  rw [if_pos (by omega)]
  simp [List.getElem?_concat_length]

/-- A successful Python list read returns an element of the list. -/
theorem pyIndex_mem {β : Type} {xs : List β} {i : Int} {a : β}
    (h : pyIndex xs i = some a) : a ∈ xs := by
  unfold pyIndex at h
  split_ifs at h
  · exact List.getElem?_mem h
  · exact List.getElem?_mem h

/-- A partition of `[l, r]` needs `l ≤ r`. -/
theorem IsPartition.low_le_high {α : Type} {l r : Int}
    {t : PersistentSegmentTreeNode α} (h : IsPartition l r t) : l ≤ r := by
  cases h with
  | leaf l v => exact le_refl l
  | node l r v lc rc hlr hl hr => exact le_of_lt hlr

/-- The executable partition check implies the partition invariant. -/
theorem partitionChk_sound {α : Type} :
    ∀ (t : PersistentSegmentTreeNode α) (l r : Int),
      partitionChk l r t = true → IsPartition l r t := by
  intro t
  induction t with
  | leaf a b v =>
    intro l r h
    simp only [partitionChk, Bool.and_eq_true, decide_eq_true_eq] at h
    obtain ⟨⟨ha, hb⟩, hlr⟩ := h
    subst ha; subst hb; subst hlr
    exact .leaf a v
  | node a b v lc rc ihl ihr =>
    intro l r h
    simp only [partitionChk, Bool.and_eq_true, decide_eq_true_eq] at h
    obtain ⟨⟨⟨⟨ha, hb⟩, hlr⟩, hcl⟩, hcr⟩ := h
    subst ha; subst hb
    exact .node a b v lc rc hlr (ihl _ _ hcl) (ihr _ _ hcr)

/-- With an inverted range the source recursion never bottoms out: `_build`
exhausts every budget. -/
theorem _build_none_of_lt (α : Type) :
    ∀ (fuel : Nat) (l r : Int), r < l → _build α fuel l r = none := by
  intro fuel
  induction fuel with
  | zero => intro l r h; rfl
  | succ n ih =>
    intro l r h
    unfold _build
    rw [if_neg (by omega), ih l (Int.fdiv (l + r) 2) (fdiv2_lt_left h)]

/-- Everything `_build` returns satisfies the partition invariant. -/
theorem _build_isPartition (α : Type) :
    ∀ (fuel : Nat) (l r : Int) (t : PersistentSegmentTreeNode α),
      _build α fuel l r = some t → IsPartition l r t := by
  intro fuel
  induction fuel with
  | zero => intro l r t h; cases h
  | succ n ih =>
    intro l r t h
    unfold _build at h
    split_ifs at h with hlr
    · cases h; subst hlr; exact .leaf l none
    · cases hbl : _build α n l (Int.fdiv (l + r) 2) with
      | none =>
        rw [hbl] at h
        cases hbr : _build α n (Int.fdiv (l + r) 2 + 1) r <;>
          rw [hbr] at h <;> cases h
      | some lc =>
        rw [hbl] at h
        cases hbr : _build α n (Int.fdiv (l + r) 2 + 1) r with
        | none => rw [hbr] at h; cases h
        | some rc =>
          rw [hbr] at h
          cases h
          have hlt : l < r := by
            rcases lt_trichotomy l r with h1 | h1 | h1
            · exact h1
            · exact absurd h1 hlr
            · rw [_build_none_of_lt α n l _ (fdiv2_lt_left h1)] at hbl
              cases hbl
          exact .node l r none lc rc hlt (ih _ _ _ hbl) (ih _ _ _ hbr)

/-- With a well-ordered range and enough budget, `_build` succeeds and every
leaf it makes is unset. -/
theorem _build_some_unset (α : Type) :
    ∀ (fuel : Nat) (l r : Int), l ≤ r → (r - l).toNat < fuel →
      ∃ t, _build α fuel l r = some t ∧ ∀ p ∈ t.leaves, p.2 = none := by
  intro fuel
  induction fuel with
  | zero => intro l r h1 h2; exact absurd h2 (Nat.not_lt_zero _)
  | succ n ih =>
    intro l r h1 h2
    by_cases hlr : l = r
    · refine ⟨.leaf l r none, ?_, ?_⟩
      · unfold _build; rw [if_pos hlr]
      · simp [PersistentSegmentTreeNode.leaves]
    · have hlt : l < r := lt_of_le_of_ne h1 hlr
      obtain ⟨hm1, hm2⟩ := fdiv2_bounds hlt
      obtain ⟨lc, hlc, hlcn⟩ := ih l (Int.fdiv (l + r) 2) hm1 (by omega)
      obtain ⟨rc, hrc, hrcn⟩ :=
        ih (Int.fdiv (l + r) 2 + 1) r (by omega) (by omega)
      refine ⟨.node l r none lc rc, ?_, ?_⟩
      · unfold _build; rw [if_neg hlr, hlc, hrc]
      · intro p hp
        simp only [PersistentSegmentTreeNode.leaves, List.mem_append] at hp
        rcases hp with hp | hp
        · exact hlcn p hp
        · exact hrcn p hp

/-- Path copying preserves the partition invariant. -/
theorem _update_isPartition {α : Type} {l r : Int}
    {t : PersistentSegmentTreeNode α} (h : IsPartition l r t) (idx : Int)
    (x : α) : IsPartition l r (_update t idx x) := by
  induction h with
  | leaf l v => exact .leaf l (some x)
  | node l r v lc rc hlr hl hr ihl ihr =>
    unfold _update
    rw [if_neg (by omega)]
    by_cases hi : idx ≤ Int.fdiv (l + r) 2
    · rw [if_pos hi]; exact .node _ _ _ _ _ hlr ihl hr
    · rw [if_neg hi]; exact .node _ _ _ _ _ hlr hl ihr

/-- A one-point integer range. -/
theorem intRange_single (l : Int) : intRange l l = [l] := by
  have h : (l + 1 - l).toNat = 1 := by omega
  rw [intRange, h, List.range_succ, List.range_zero]
  simp

/-- Adjacent integer ranges concatenate. -/
theorem intRange_append {a b c : Int} (h1 : a ≤ b + 1) (h2 : b ≤ c) :
    intRange a b ++ intRange (b + 1) c = intRange a c := by
  have hn : (c + 1 - a).toNat = (b + 1 - a).toNat + (c - b).toNat := by omega
  have hc : (c + 1 - (b + 1)).toNat = (c - b).toNat := by omega
  rw [intRange, intRange, intRange, hn, hc, List.range_add, List.map_append,
    List.map_map]
  congr 1
  apply List.map_congr_left
  intro k hk
  simp only [Function.comp_apply]
  push_cast
  omega

/-- Membership in an integer range is the pair of bounds. -/
theorem mem_intRange {l r i : Int} : i ∈ intRange l r ↔ l ≤ i ∧ i ≤ r := by
  constructor
  · intro h
    simp only [intRange, List.mem_map, List.mem_range] at h
    obtain ⟨k, hk, rfl⟩ := h
    omega
  · intro h
    simp only [intRange, List.mem_map, List.mem_range]
    exact ⟨(i - l).toNat, by omega, by omega⟩

/-- An integer range is strictly ascending. -/
theorem intRange_sorted (l r : Int) : List.Sorted (· < ·) (intRange l r) := by
  rw [intRange]
  exact (List.pairwise_lt_range _).map _ fun a b hab => by omega

/-- The leaf indices of a partition of `[l, r]` are exactly `l, ..., r`, in
ascending order. -/
theorem leaves_fst {α : Type} {l r : Int} {t : PersistentSegmentTreeNode α}
    (h : IsPartition l r t) :
    t.leaves.map Prod.fst = intRange l r := by
  induction h with
  | leaf a v => simp [PersistentSegmentTreeNode.leaves, intRange_single]
  | node a b v lc rc hlr hlp hrp ihl ihr =>
    obtain ⟨hm1, hm2⟩ := fdiv2_bounds hlr
    simp only [PersistentSegmentTreeNode.leaves, List.map_append]
    rw [ihl, ihr, intRange_append (by omega) (by omega)]

/-- Every leaf index of a partition of `[l, r]` lies in `[l, r]`. -/
theorem mem_leaves_bounds {α : Type} {l r : Int}
    {t : PersistentSegmentTreeNode α} (h : IsPartition l r t)
    {p : Int × Option α} (hp : p ∈ t.leaves) : l ≤ p.1 ∧ p.1 ≤ r := by
  have hm : p.1 ∈ t.leaves.map Prod.fst := List.mem_map_of_mem _ hp
  rw [leaves_fst h] at hm
  exact mem_intRange.mp hm

/-- A node disjoint from the query range contributes nothing. -/
theorem _query_disjoint {α : Type} {l r : Int}
    {t : PersistentSegmentTreeNode α} (h : IsPartition l r t) {ql qr : Int}
    (hd : r < ql ∨ qr < l) : _query t ql qr = [] := by
  cases h with
  | leaf a v =>
    simp only [_query]
    rw [if_pos (hd.imp id id)]
  | node a b v lc rc hlr hlp hrp =>
    simp only [_query]
    rw [if_pos (hd.imp id id)]

/-- Range query on a partition returns exactly the leaf values whose index
falls inside the query range, in leaf order. -/
theorem _query_eq_filter {α : Type} {l r : Int}
    {t : PersistentSegmentTreeNode α} (h : IsPartition l r t) (ql qr : Int) :
    _query t ql qr =
      (t.leaves.filter fun p => decide (ql ≤ p.1 ∧ p.1 ≤ qr)).map Prod.snd := by
  induction h with
  | leaf a v =>
    simp only [_query, PersistentSegmentTreeNode.leaves]
    by_cases hc : ql ≤ a ∧ a ≤ qr
    · rw [if_neg (by omega)]
      simp [hc]
    · rw [if_pos (by omega)]
      simp [hc]
  | node a b v lc rc hlr hlp hrp ihl ihr =>
    by_cases hd : b < ql ∨ qr < a
    · have hnil :
          ((PersistentSegmentTreeNode.node a b v lc rc).leaves.filter
            fun p => decide (ql ≤ p.1 ∧ p.1 ≤ qr)) = [] := by
        rw [List.filter_eq_nil_iff]
        intro p hp
        have hb := mem_leaves_bounds (.node a b v lc rc hlr hlp hrp) hp
        simp only [decide_eq_true_eq]
        omega
      rw [_query_disjoint (.node a b v lc rc hlr hlp hrp) hd, hnil]
      rfl
    · simp only [_query]
      rw [if_neg (fun hc => hd (hc.imp id id))]
      simp only [PersistentSegmentTreeNode.leaves, List.filter_append,
        List.map_append]
      rw [ihl, ihr]

/-- A single-point query at a leaf index returns that leaf's value. -/
theorem _query_point {α : Type} {l r : Int} {t : PersistentSegmentTreeNode α}
    (h : IsPartition l r t) :
    ∀ (c : Int) (w : Option α), (c, w) ∈ t.leaves → _query t c c = [w] := by
  induction h with
  | leaf a v =>
    intro c w hw
    simp only [PersistentSegmentTreeNode.leaves, List.mem_singleton,
      Prod.mk.injEq] at hw
    obtain ⟨rfl, rfl⟩ := hw
    simp [_query]
  | node a b v lc rc hlr hlp hrp ihl ihr =>
    intro c w hw
    obtain ⟨hm1, hm2⟩ := fdiv2_bounds hlr
    simp only [PersistentSegmentTreeNode.leaves, List.mem_append] at hw
    rcases hw with hw | hw
    · have hb := mem_leaves_bounds hlp hw
      simp only [_query]
      rw [if_neg (by omega), ihl c w hw,
        _query_disjoint hrp (Or.inr (by omega))]
      rfl
    · have hb := mem_leaves_bounds hrp hw
      simp only [_query]
      rw [if_neg (by omega), ihr c w hw,
        _query_disjoint hlp (Or.inl (by omega))]
      rfl

/-- Bounds of the clamped index. -/
theorem pclamp_bounds (idx : Int) {l r : Int} (h : l ≤ r) :
    l ≤ pclamp l r idx ∧ pclamp l r idx ≤ r := by
  unfold pclamp; split_ifs <;> omega

/-- After a point update, a single-point query at the clamped index returns
the written value: an in-range `idx` hits its own leaf and an out-of-range
`idx` hits the boundary leaf the walk ends at. -/
theorem _query_update_pclamp {α : Type} {l r : Int}
    {t : PersistentSegmentTreeNode α} (h : IsPartition l r t) :
    ∀ (idx : Int) (x : α),
      _query (_update t idx x) (pclamp l r idx) (pclamp l r idx) =
        [some x] := by
  induction h with
  | leaf a v =>
    intro idx x
    have hc : pclamp a a idx = a := by unfold pclamp; split_ifs <;> omega
    rw [hc]
    simp [_update, _query]
  | node a b v lc rc hlr hlp hrp ihl ihr =>
    intro idx x
    obtain ⟨hm1, hm2⟩ := fdiv2_bounds hlr
    by_cases hi : idx ≤ Int.fdiv (a + b) 2
    · have hc : pclamp a b idx = pclamp a (Int.fdiv (a + b) 2) idx := by
        unfold pclamp; split_ifs <;> omega
      obtain ⟨hc1, hc2⟩ := pclamp_bounds idx hm1
      simp only [_update]
      rw [if_neg (by omega), if_pos hi, hc]
      simp only [_query]
      rw [if_neg (by omega), ihl idx x,
        _query_disjoint hrp (Or.inr (by omega))]
      rfl
    · have hb1 : Int.fdiv (a + b) 2 + 1 ≤ b := by omega
      have hc : pclamp a b idx = pclamp (Int.fdiv (a + b) 2 + 1) b idx := by
        unfold pclamp; split_ifs <;> omega
      obtain ⟨hc1, hc2⟩ := pclamp_bounds idx hb1
      simp only [_update]
      rw [if_neg (by omega), if_neg hi, hc]
      simp only [_query]
      rw [if_neg (by omega), ihr idx x,
        _query_disjoint hlp (Or.inl (by omega))]
      rfl

/-- The freshly built tree is well formed. -/
theorem initF_treeWF {α : Type} {fuel : Nat} {size : Int}
    {t : PersistentSegmentTree α}
    (h : PersistentSegmentTree.initF α fuel size = some t) : TreeWF t := by
  unfold PersistentSegmentTree.initF at h
  cases hb : _build α fuel 0 (size - 1) with
  | none => rw [hb] at h; cases h
  | some root =>
    rw [hb] at h
    cases h
    intro r0 hr0
    simp only [List.mem_singleton] at hr0
    subst hr0
    exact _build_isPartition α fuel _ _ _ hb

/-- Unfolding of a successful `update`: the new version list and the
returned version id `len(versions) - 1`. -/
theorem update_eq_some {α : Type} {t : PersistentSegmentTree α}
    {version : Int} (idx : Int) (x : α) {root : PersistentSegmentTreeNode α}
    (hp : pyIndex t.versions version = some root) :
    t.update version idx x =
      some (⟨t.size, t.versions ++ [_update root idx x]⟩,
        (t.versions.length : Int)) := by
  unfold PersistentSegmentTree.update
  rw [hp]
  simp [List.length_append]

/-- `update` fails exactly when the version id is outside
`[-len(versions), len(versions))` — the `idx` argument plays no role. -/
theorem update_eq_none_iff {α : Type} (t : PersistentSegmentTree α)
    (version idx : Int) (x : α) :
    t.update version idx x = none ↔
      version < -(t.versions.length : Int) ∨
        (t.versions.length : Int) ≤ version := by
  cases hp : pyIndex t.versions version with
  | none =>
    unfold PersistentSegmentTree.update
    rw [hp]
    exact iff_of_true rfl ((pyIndex_eq_none_iff _ _).mp hp)
  | some root =>
    rw [update_eq_some idx x hp]
    refine iff_of_false (by simp) ?_
    intro hb
    rw [(pyIndex_eq_none_iff _ _).mpr hb] at hp
    cases hp

/-- `update` preserves well-formedness. -/
theorem update_treeWF {α : Type} {t t' : PersistentSegmentTree α}
    {version idx : Int} {x : α} {v' : Int}
    (hwf : TreeWF t) (h : t.update version idx x = some (t', v')) :
    TreeWF t' := by
  cases hp : pyIndex t.versions version with
  | none =>
    unfold PersistentSegmentTree.update at h
    rw [hp] at h
    cases h
  | some root =>
    rw [update_eq_some idx x hp] at h
    cases h
    intro r0 hr0
    simp only [List.mem_append, List.mem_singleton] at hr0
    rcases hr0 with hr0 | hr0
    · exact hwf r0 hr0
    · subst hr0
      exact _update_isPartition (hwf root (pyIndex_mem hp)) idx x

/-- One freshly allocated node per level of the walked path. -/
theorem newNodes_length {α : Type} :
    ∀ (t : PersistentSegmentTreeNode α) (idx : Int) (x : α),
      (newNodes t idx x).length = updateCount t idx := by
  intro t
  induction t with
  | leaf a b v => intro idx x; rfl
  | node a b v lc rc ihl ihr =>
    intro idx x
    simp only [newNodes, updateCount]
    split_ifs with h1 h2
    · rfl
    · simp only [List.length_cons, ihl]; omega
    · simp only [List.length_cons, ihr]; omega

/-- Every node reachable from the updated root is either one of the freshly
allocated path nodes or a node reachable from the original root (the
structural-sharing property). -/
theorem subtrees_update {α : Type} :
    ∀ (t : PersistentSegmentTreeNode α) (idx : Int) (x : α),
      ∀ u ∈ (_update t idx x).subtrees,
        u ∈ newNodes t idx x ∨ u ∈ t.subtrees := by
  intro t
  induction t with
  | leaf a b v =>
    intro idx x u hu
    simp only [_update, PersistentSegmentTreeNode.subtrees,
      List.mem_singleton] at hu
    subst hu
    exact Or.inl (by simp [newNodes])
  | node a b v lc rc ihl ihr =>
    intro idx x u hu
    simp only [_update] at hu
    by_cases h1 : a = b
    · rw [if_pos h1] at hu
      simp only [PersistentSegmentTreeNode.subtrees,
        List.mem_singleton] at hu
      subst hu
      exact Or.inl (by simp [newNodes, if_pos h1])
    · rw [if_neg h1] at hu
      by_cases h2 : idx ≤ Int.fdiv (a + b) 2
      · rw [if_pos h2] at hu
        simp only [PersistentSegmentTreeNode.subtrees, List.mem_cons,
          List.mem_append] at hu
        rcases hu with hu | hu | hu
        · subst hu
          exact Or.inl (by simp [newNodes, if_neg h1, if_pos h2])
        · rcases ihl idx x u hu with h | h
          · exact Or.inl (by simp [newNodes, if_neg h1, if_pos h2, h])
          · exact Or.inr (by simp [PersistentSegmentTreeNode.subtrees, h])
        · exact Or.inr (by simp [PersistentSegmentTreeNode.subtrees, hu])
      · rw [if_neg h2] at hu
        simp only [PersistentSegmentTreeNode.subtrees, List.mem_cons,
          List.mem_append] at hu
        rcases hu with hu | hu | hu
        · subst hu
          exact Or.inl (by simp [newNodes, if_neg h1, if_neg h2])
        · exact Or.inr (by simp [PersistentSegmentTreeNode.subtrees, hu])
        · rcases ihr idx x u hu with h | h
          · exact Or.inl (by simp [newNodes, if_neg h1, if_neg h2, h])
          · exact Or.inr (by simp [PersistentSegmentTreeNode.subtrees, h])

/-- One update walks at most `⌈log2 size⌉ + 1` levels, so it allocates at
most that many nodes. -/
theorem updateCount_le {α : Type} {l r : Int}
    {t : PersistentSegmentTreeNode α} (h : IsPartition l r t) :
    ∀ idx : Int, updateCount t idx ≤ Nat.clog 2 (r + 1 - l).toNat + 1 := by
  induction h with
  | leaf a v =>
    intro idx
    simp only [updateCount]
    omega
  | node a b v lc rc hlr hlp hrp ihl ihr =>
    intro idx
    obtain ⟨hm1, hm2⟩ := fdiv2_bounds hlr
    have hfd : Int.fdiv (a + b) 2 = (a + b) / 2 := fdiv_two _
    have hs2 : 2 ≤ (b + 1 - a).toNat := by omega
    have harg : ((b + 1 - a).toNat + 2 - 1) / 2 = ((b + 1 - a).toNat + 1) / 2 := by
      omega
    have hrec : Nat.clog 2 (b + 1 - a).toNat
        = Nat.clog 2 (((b + 1 - a).toNat + 1) / 2) + 1 := by
      rw [Nat.clog_of_two_le (by norm_num) hs2, harg]
    simp only [updateCount]
    rw [if_neg (by omega)]
    by_cases hi : idx ≤ Int.fdiv (a + b) 2
    · rw [if_pos hi]
      have h1 := ihl idx
      have hL : (Int.fdiv (a + b) 2 + 1 - a).toNat
          = ((b + 1 - a).toNat + 1) / 2 := by rw [hfd]; omega
      rw [hL] at h1
      omega
    · rw [if_neg hi]
      have h1 := ihr idx
      have hR : (b + 1 - (Int.fdiv (a + b) 2 + 1)).toNat
          = (b + 1 - a).toNat / 2 := by rw [hfd]; omega
      rw [hR] at h1
      have hmono : Nat.clog 2 ((b + 1 - a).toNat / 2)
          ≤ Nat.clog 2 (((b + 1 - a).toNat + 1) / 2) :=
        Nat.clog_mono_right 2 (by omega)
      omega

/-- Length of a filter of pairs by a test on the first component, along the
projection. -/
theorem length_filter_fst {α : Type} (q : Int → Bool) :
    ∀ xs : List (Int × Option α),
      (xs.filter fun p => q p.1).length
        = ((xs.map Prod.fst).filter q).length := by
  intro xs
  induction xs with
  | nil => rfl
  | cons a xs ih =>
    simp only [List.map_cons, List.filter_cons]
    by_cases h : q a.1 = true
    · simp [h, ih]
    · simp [h, ih]

/-- Length of a filter over a mapped list, along the map. -/
theorem length_filter_map_eq {γ δ : Type} (f : γ → δ) (q : δ → Bool) :
    ∀ xs : List γ,
      ((xs.map f).filter q).length
        = (xs.filter fun a => q (f a)).length := by
  intro xs
  induction xs with
  | nil => rfl
  | cons a xs ih =>
    simp only [List.map_cons, List.filter_cons]
    by_cases h : q (f a) = true
    · simp [h, ih]
    · simp [h, ih]

/-- Counting how many of `0, ..., n - 1` satisfy `j ≤ k - 1` over the
integers. -/
theorem length_filter_range (k : Nat) :
    ∀ n : Nat,
      ((List.range n).filter fun j : Nat =>
          decide ((j : Int) ≤ (k : Int) - 1)).length
        = min k n := by
  intro n
  induction n with
  | zero => simp
  | succ n ih =>
    rw [List.range_succ, List.filter_append, List.length_append, ih]
    by_cases h : (n : Int) ≤ (k : Int) - 1
    · simp only [List.filter_cons, List.filter_nil, decide_eq_true_eq, if_pos h]
      simp only [List.length_cons, List.length_nil]
      omega
    · simp only [List.filter_cons, List.filter_nil, decide_eq_true_eq, if_neg h]
      simp only [List.length_nil]
      omega

/-- Unfolding of a successful `query`. -/
theorem query_eq_some {α : Type} {t : PersistentSegmentTree α} {v : Int}
    {root : PersistentSegmentTreeNode α}
    (hp : pyIndex t.versions v = some root) (l r : Int) :
    t.query v l r = some (_query root l r) := by
  unfold PersistentSegmentTree.query
  rw [hp]
  rfl

/-- A version id in `[0, len)` reads successfully. -/
theorem pyIndex_isSome_of_bounds {β : Type} {xs : List β} {i : Int}
    (h0 : 0 ≤ i) (h1 : i < (xs.length : Int)) :
    ∃ a, pyIndex xs i = some a := by
  cases hp : pyIndex xs i with
  | none =>
    rw [pyIndex_eq_none_iff] at hp
    exact absurd hp (by omega)
  | some a => exact ⟨a, rfl⟩

/-- Length of a prefix range query on a partition of `[0, s - 1]`: the query
`[0, k - 1]` returns `min k s` values. -/
theorem query_length {α : Type} {s : Int} {t : PersistentSegmentTreeNode α}
    (h : IsPartition 0 (s - 1) t) (k : Nat) :
    (_query t 0 ((k : Int) - 1)).length = min k s.toNat := by
  have hs1 : (0 : Int) ≤ s - 1 := h.low_le_high
  rw [_query_eq_filter h, List.length_map,
    length_filter_fst (fun i => decide ((0 : Int) ≤ i ∧ i ≤ (k : Int) - 1)),
    leaves_fst h, intRange,
    length_filter_map_eq (fun j : Nat => (0 : Int) + (j : Int))
      (fun i => decide ((0 : Int) ≤ i ∧ i ≤ (k : Int) - 1))]
  have hcong : ∀ j ∈ List.range (s - 1 + 1 - 0).toNat,
      (decide ((0 : Int) ≤ 0 + (j : Int) ∧ 0 + (j : Int) ≤ (k : Int) - 1))
        = decide ((j : Int) ≤ (k : Int) - 1) := by
    intro j hj
    simp only [decide_eq_decide]
    omega
  rw [List.filter_congr hcong, length_filter_range]
  omega

/-- Executable entry to tree well-formedness for concrete states. -/
theorem treeWF_of_chk {α : Type} {t : PersistentSegmentTree α}
    (h : t.versions.all (partitionChk 0 (t.size - 1)) = true) : TreeWF t := by
  intro root hr
  rw [List.all_eq_true] at h
  exact partitionChk_sound root _ _ (h root hr)

/-- Claim C1: persistence.  For every tree, every valid version `v` (an id
in `[0, len(versions))`) and every later update from any version producing a
new state, `query(v, l, r)` is unchanged for all `l, r`; the parent version
stays independently queryable with its prior leaf values. -/
theorem C1_persistence {α : Type} (t t' : PersistentSegmentTree α)
    (u idx v' : Int) (x : α) (v l r : Int)
    (hupd : t.update u idx x = some (t', v'))
    (h0 : 0 ≤ v) (h1 : v < (t.versions.length : Int)) :
    t'.query v l r = t.query v l r := by
  cases hp : pyIndex t.versions u with
  | none =>
    unfold PersistentSegmentTree.update at hupd
    rw [hp] at hupd
    cases hupd
  | some root =>
    rw [update_eq_some idx x hp] at hupd
    cases hupd
    unfold PersistentSegmentTree.query
    rw [pyIndex_append_left _ _ _ h0 h1]

/-- Claim C1 witness: on the concrete size-2 tree, version 0 queries the
same before and after the update that produced version 1. -/
theorem C1_persistence_witness :
    PersistentSegmentTree.query
        ⟨2, [root2, .node 0 1 none (.leaf 0 0 (some 5)) (.leaf 1 1 none)]⟩
        0 0 1
      = t2.query 0 0 1 :=
  C1_persistence t2
    ⟨2, [root2, .node 0 1 none (.leaf 0 0 (some 5)) (.leaf 1 1 none)]⟩
    0 0 1 5 0 0 1 (by decide) (by decide) (by decide)

/-- Claim C2: point round-trip.  On a well-formed tree, updating a valid
version at an in-range index returns a version id whose single-point query
at that index yields exactly the written value. -/
theorem C2_point_roundtrip {α : Type} (t t' : PersistentSegmentTree α)
    (v idx v' : Int) (x : α)
    (hwf : TreeWF t) (h0 : 0 ≤ v) (h1 : v < (t.versions.length : Int))
    (h2 : 0 ≤ idx) (h3 : idx < t.size)
    (hupd : t.update v idx x = some (t', v')) :
    t'.query v' idx idx = some [some x] := by
  cases hp : pyIndex t.versions v with
  | none =>
    rw [pyIndex_eq_none_iff] at hp
    exact absurd hp (by omega)
  | some root =>
    rw [update_eq_some idx x hp] at hupd
    cases hupd
    have hroot := hwf root (pyIndex_mem hp)
    have hq : pyIndex (t.versions ++ [_update root idx x])
        ((t.versions.length : Int)) = some (_update root idx x) :=
      pyIndex_append_length _ _
    have hqq : PersistentSegmentTree.query
        ⟨t.size, t.versions ++ [_update root idx x]⟩
        ((t.versions.length : Int)) idx idx
        = some (_query (_update root idx x) idx idx) :=
      query_eq_some hq idx idx
    rw [hqq]
    have hc : pclamp 0 (t.size - 1) idx = idx := by
      unfold pclamp; split_ifs <;> omega
    have hfin := _query_update_pclamp hroot idx x
    rw [hc] at hfin
    rw [hfin]

/-- Claim C2 witness: updating slot 0 of the fresh size-2 tree with value 5
gives version 1, and querying it back returns `[5]`. -/
theorem C2_point_roundtrip_witness :
    PersistentSegmentTree.query
        ⟨2, [root2, .node 0 1 none (.leaf 0 0 (some 5)) (.leaf 1 1 none)]⟩
        1 0 0
      = some [some 5] :=
  C2_point_roundtrip t2
    ⟨2, [root2, .node 0 1 none (.leaf 0 0 (some 5)) (.leaf 1 1 none)]⟩
    0 0 1 5 (treeWF_of_chk (by decide)) (by decide) (by decide) (by decide)
    (by decide) (by decide)

/-- Claim C3 (amended): `update` fails (with Python's IndexError) exactly
when the version id is outside `[-len(versions), len(versions))`; negative
ids inside that window are accepted and wrap around (Python indexing); the
`idx` argument is never validated and never causes a failure; on failure no
version is appended (the read raises before the append) and on success
exactly one version is appended and `len(versions) - 1` is returned. -/
theorem C3_update_errors_amended {α : Type} (t : PersistentSegmentTree α)
    (version idx : Int) (x : α) :
    (t.update version idx x = none ↔
        version < -(t.versions.length : Int) ∨
          (t.versions.length : Int) ≤ version) ∧
      ∀ t' v', t.update version idx x = some (t', v') →
        t'.versions.length = t.versions.length + 1 ∧ t'.size = t.size ∧
          v' = (t.versions.length : Int) := by
  refine ⟨update_eq_none_iff t version idx x, ?_⟩
  intro t' v' h
  cases hp : pyIndex t.versions version with
  | none =>
    unfold PersistentSegmentTree.update at h
    rw [hp] at h
    cases h
  | some root =>
    rw [update_eq_some idx x hp] at h
    cases h
    exact ⟨by simp [List.length_append], rfl, rfl⟩

/-- Claim C3 witness: on the size-2 tree with one version, version id 2 is
out of range and the update fails. -/
theorem C3_update_errors_amended_witness : t2.update 2 0 5 = none :=
  ((C3_update_errors_amended t2 2 0 5).1).mpr (by decide)

/-- Claim C3 counterexample: the claim requires failure for negative
version ids and for out-of-range `idx`, but on the size-2 tree the update
with version `-1` succeeds (Python indexing wraps it to the last version)
and the update with `idx = 5` succeeds as well (no index validation
exists). -/
theorem C3_counterexample :
    (t2.update (-1) 0 5).isSome = true ∧ (t2.update 0 5 7).isSome = true := by
  decide

/-- Claim C8 (amended): with `size ≥ 1` the constructor builds version 0
with every leaf of `[0, size-1]` unset; with `size < 1` it raises no
configuration error — the recursion `_build(0, size-1)` never returns, at
any recursion depth (the source has no ConfigError and no size check). -/
theorem C8_build_amended (α : Type) (size : Int) (fuel : Nat) :
    (1 ≤ size → size.toNat ≤ fuel →
      ∃ t : PersistentSegmentTree α,
        PersistentSegmentTree.initF α fuel size = some t ∧
        t.size = size ∧
        ∃ root, t.versions = [root] ∧ IsPartition 0 (size - 1) root ∧
          ∀ p ∈ root.leaves, p.2 = none) ∧
    (size < 1 → PersistentSegmentTree.initF α fuel size = none) := by
  constructor
  · intro hs hf
    obtain ⟨root, hb, hunset⟩ :=
      _build_some_unset α fuel 0 (size - 1) (by omega) (by omega)
    refine ⟨⟨size, [root]⟩, ?_, rfl, root, rfl,
      _build_isPartition α fuel _ _ _ hb, hunset⟩
    unfold PersistentSegmentTree.initF
    rw [hb]
    rfl
  · intro hs
    unfold PersistentSegmentTree.initF
    rw [_build_none_of_lt α fuel 0 (size - 1) (by omega)]
    rfl

/-- Claim C8 witness: size 2 with budget 5 builds version 0, a partition of
`[0, 1]` with both leaves unset. -/
theorem C8_build_amended_witness :
    ∃ t : PersistentSegmentTree Nat,
      PersistentSegmentTree.initF Nat 5 2 = some t ∧ t.size = 2 ∧
      ∃ root, t.versions = [root] ∧ IsPartition 0 (2 - 1) root ∧
        ∀ p ∈ root.leaves, p.2 = none :=
  (C8_build_amended Nat 2 5).1 (by norm_num) (by norm_num)

/-- Claim C8 counterexample: at the concrete input size 0 the constructor
does not fail with a configuration error (none exists in the code) and does
not construct a tree — for every recursion budget the build returns
nothing, i.e. the recursion never terminates. -/
theorem C8_counterexample : buildNeverReturns := by
  intro fuel
  unfold PersistentSegmentTree.initF
  rw [_build_none_of_lt Nat fuel 0 (0 - 1) (by norm_num)]
  rfl

/-- Claim C9: query output shape.  On a well-formed tree and a valid
version, `query(v, l, r)` returns exactly the values of the leaves whose
index lies in `[l, r]` intersected with `[0, size-1]` (the leaf indices are
exactly `0..size-1`), in ascending index order, unset leaves contributing
the sentinel; in particular `l > r` yields the empty sequence. -/
theorem C9_query_shape {α : Type} (t : PersistentSegmentTree α)
    (v l r : Int) (root : PersistentSegmentTreeNode α)
    (hwf : TreeWF t) (hp : pyIndex t.versions v = some root) :
    t.query v l r =
        some ((root.leaves.filter fun p =>
          decide (l ≤ p.1 ∧ p.1 ≤ r)).map Prod.snd) ∧
      root.leaves.map Prod.fst = intRange 0 (t.size - 1) ∧
      List.Sorted (· < ·) (root.leaves.map Prod.fst) ∧
      (r < l → t.query v l r = some []) := by
  have hroot := hwf root (pyIndex_mem hp)
  have hfst := leaves_fst hroot
  refine ⟨?_, hfst, ?_, ?_⟩
  · rw [query_eq_some hp, _query_eq_filter hroot]
  · rw [hfst]; exact intRange_sorted _ _
  · intro hlr
    have hnil : (root.leaves.filter fun p =>
        decide (l ≤ p.1 ∧ p.1 ≤ r)) = [] := by
      rw [List.filter_eq_nil_iff]
      intro p hp2
      simp only [decide_eq_true_eq]
      omega
    rw [query_eq_some hp, _query_eq_filter hroot, hnil]
    rfl

/-- Claim C9 witness: querying `[0, 1]` of the fresh size-2 tree returns
the two unset leaves in order. -/
theorem C9_query_shape_witness :
    t2.query 0 0 1
      = some ((root2.leaves.filter fun p =>
          decide ((0 : Int) ≤ p.1 ∧ p.1 ≤ 1)).map Prod.snd) :=
  (C9_query_shape t2 0 0 1 root2 (treeWF_of_chk (by decide)) (by decide)).1

/-- Claim C10: implicit out-of-range clamping of `update`.  On a
well-formed tree and a valid version, an update always succeeds for any
`idx`, appends one version, and with `idx ≥ size` stores the value at the
boundary leaf `size - 1`, with `idx < 0` at leaf 0. -/
theorem C10_update_clamps {α : Type} (t : PersistentSegmentTree α)
    (v idx : Int) (x : α)
    (hwf : TreeWF t) (h0 : 0 ≤ v) (h1 : v < (t.versions.length : Int)) :
    (∃ t' v', t.update v idx x = some (t', v')) ∧
      ∀ t' v', t.update v idx x = some (t', v') →
        t'.versions.length = t.versions.length + 1 ∧
        (t.size ≤ idx →
          t'.query v' (t.size - 1) (t.size - 1) = some [some x]) ∧
        (idx < 0 → t'.query v' 0 0 = some [some x]) := by
  obtain ⟨root, hp⟩ := pyIndex_isSome_of_bounds h0 h1
  have hroot := hwf root (pyIndex_mem hp)
  have hs1 : (0 : Int) ≤ t.size - 1 := hroot.low_le_high
  refine ⟨⟨_, _, update_eq_some idx x hp⟩, ?_⟩
  intro t' v' hupd
  rw [update_eq_some idx x hp] at hupd
  cases hupd
  have hq : pyIndex (t.versions ++ [_update root idx x])
      ((t.versions.length : Int)) = some (_update root idx x) :=
    pyIndex_append_length _ _
  refine ⟨by simp [List.length_append], ?_, ?_⟩
  · intro hbig
    have hqq : PersistentSegmentTree.query
        ⟨t.size, t.versions ++ [_update root idx x]⟩
        ((t.versions.length : Int)) (t.size - 1) (t.size - 1)
        = some (_query (_update root idx x) (t.size - 1) (t.size - 1)) :=
      query_eq_some hq _ _
    rw [hqq]
    have hc : pclamp 0 (t.size - 1) idx = t.size - 1 := by
      unfold pclamp; split_ifs <;> omega
    have hfin := _query_update_pclamp hroot idx x
    rw [hc] at hfin
    rw [hfin]
  · intro hneg
    have hqq : PersistentSegmentTree.query
        ⟨t.size, t.versions ++ [_update root idx x]⟩
        ((t.versions.length : Int)) 0 0
        = some (_query (_update root idx x) 0 0) :=
      query_eq_some hq _ _
    rw [hqq]
    have hc : pclamp 0 (t.size - 1) idx = 0 := by
      unfold pclamp; split_ifs; omega
    have hfin := _query_update_pclamp hroot idx x
    rw [hc] at hfin
    rw [hfin]

/-- Claim C10 witness: updating the size-2 tree at `idx = 5` succeeds and
stores the value at the boundary leaf 1. -/
theorem C10_update_clamps_witness :
    PersistentSegmentTree.query
        ⟨2, [root2, .node 0 1 none (.leaf 0 0 none) (.leaf 1 1 (some 7))]⟩
        1 1 1
      = some [some 7] :=
  ((C10_update_clamps t2 0 5 7 (treeWF_of_chk (by decide)) (by decide)
    (by decide)).2
    ⟨2, [root2, .node 0 1 none (.leaf 0 0 none) (.leaf 1 1 (some 7))]⟩
    1 (by decide)).2.1 (by decide)

/-- Claim C4 (amended): `get_all_results(v)` queries `[0, next_idx - 1]`
with the tracker's current `next_idx`, not the slot count at the moment `v`
was created; for a valid version its length is `min(current next_idx,
size)`, and when the current `next_idx` is 0 it returns the empty sequence
without error. -/
theorem C4_snapshot_scoping_amended {π β : Type}
    (m : FlightSearchBranchManager π β) (v : Int)
    (hwf : TreeWF m.tree) (h0 : 0 ≤ v)
    (h1 : v < (m.tree.versions.length : Int)) :
    (m.get_all_results v).map List.length
        = some (min m.next_idx m.tree.size.toNat) ∧
      (m.next_idx = 0 → m.get_all_results v = some []) := by
  obtain ⟨root, hp⟩ := pyIndex_isSome_of_bounds h0 h1
  have hroot := hwf root (pyIndex_mem hp)
  have hq : m.get_all_results v
      = some (_query root 0 ((m.next_idx : Int) - 1)) := by
    unfold FlightSearchBranchManager.get_all_results
    exact query_eq_some hp _ _
  constructor
  · rw [hq]
    show some ((_query root 0 ((m.next_idx : Int) - 1)).length) = _
    rw [query_length hroot]
  · intro hz
    rw [hq, hz]
    have hlen := query_length hroot 0
    rw [Nat.zero_min] at hlen
    rw [List.length_eq_zero] at hlen
    rw [hlen]

/-- Claim C4 witness: after two branches, the tracker reports length
`min 2 2 = 2` for version 1. -/
theorem C4_snapshot_scoping_amended_witness :
    (mgr2.get_all_results 1).map List.length = some 2 :=
  (C4_snapshot_scoping_amended mgr2 1 (treeWF_of_chk (by decide)) (by decide)
    (by decide)).1

/-- Claim C4 counterexample: version 1 of the two-slot manager was created
when only one slot was allocated, yet after a second `add_branch` the call
`get_all_results(1)` returns two entries (the second a phantom unset slot),
not one — the code uses the tracker's current `next_idx`. -/
theorem C4_counterexample :
    mgr2.get_all_results 1 = some [some 10, none] ∧
      (mgr2.get_all_results 1).map List.length ≠ some 1 := by
  decide

/-- Claim C5 (amended): when `next_idx ≥ max_branches` (the length of the
slot list), `add_branch` fails — via IndexError on the slot write, not a
CapacityExceeded error — with no field mutated; but when the underlying
`update` fails (e.g. an invalid `from_version`), the version sequence,
`next_idx` and `current_version` are unchanged while the slot at `next_idx`
has already been overwritten: the failure is not atomic. -/
theorem C5_add_branch_amended {π β : Type}
    (m : FlightSearchBranchManager π β) (p : π) (res : β)
    (fv : Option Int) :
    (m.branch_params.length ≤ m.next_idx →
        m.add_branch p res fv = (m, none)) ∧
      ∀ bp, pySet m.branch_params m.next_idx (some ⟨p, res⟩) = some bp →
        m.tree.update (fv.getD m.current_version) (m.next_idx : Int) res
            = none →
        m.add_branch p res fv
          = (⟨m.tree, bp, m.current_version, m.next_idx⟩, none) := by
  constructor
  · intro hcap
    unfold FlightSearchBranchManager.add_branch
    dsimp only
    rw [show pySet m.branch_params m.next_idx (some ⟨p, res⟩) = none from by
      unfold pySet; rw [if_neg (by omega)]]
  · intro bp hbp hupd
    unfold FlightSearchBranchManager.add_branch
    dsimp only
    rw [hbp]
    dsimp only
    rw [hupd]

/-- Claim C5 witness: the third `add_branch` on the full two-slot manager
fails leaving it unchanged, and an `add_branch` from the invalid version 7
on the fresh manager fails with slot 0 already overwritten. -/
theorem C5_add_branch_amended_witness :
    mgr2.add_branch 9 99 none = (mgr2, none) ∧
      mgr0.add_branch 1 10 (some 7)
        = (⟨mgr0.tree, [some ⟨1, 10⟩, none], mgr0.current_version,
            mgr0.next_idx⟩, none) :=
  ⟨(C5_add_branch_amended mgr2 9 99 none).1 (by decide),
    (C5_add_branch_amended mgr0 1 10 (some 7)).2 [some ⟨1, 10⟩, none]
      (by decide) (by decide)⟩

/-- Claim C5 counterexample: the claim says every failed `add_branch`
leaves the slot map exactly as it was, but forking from the invalid version
7 on the fresh manager fails while the slot map has changed. -/
theorem C5_counterexample :
    (mgr0.add_branch 1 10 (some 7)).2 = none ∧
      (mgr0.add_branch 1 10 (some 7)).1.branch_params
        ≠ mgr0.branch_params := by
  decide

/-- Claim C6 (amended): one update allocates exactly the nodes of the
walked root-to-leaf path — their number is `updateCount`, which is at most
`⌈log2 n⌉ + 1` but can be smaller when `n` is not a power of two — and
every node reachable from the new root is either one of those path nodes or
a node reachable from the old root (structural sharing). -/
theorem C6_sharing_amended {α : Type} (n : Int)
    (root : PersistentSegmentTreeNode α) (idx : Int) (x : α)
    (h : IsPartition 0 (n - 1) root) :
    (newNodes root idx x).length = updateCount root idx ∧
      updateCount root idx ≤ Nat.clog 2 n.toNat + 1 ∧
      ∀ u ∈ (_update root idx x).subtrees,
        u ∈ newNodes root idx x ∨ u ∈ root.subtrees := by
  refine ⟨newNodes_length root idx x, ?_, subtrees_update root idx x⟩
  have hle := updateCount_le h idx
  have hn : (n - 1 + 1 - 0).toNat = n.toNat := by omega
  rw [hn] at hle
  exact hle

/-- Claim C6 witness: on the freshly built size-3 tree, the update at index
2 allocates exactly the path nodes, within the `⌈log2 3⌉ + 1` bound, and
shares everything else with the old root. -/
theorem C6_sharing_amended_witness :
    (newNodes t3root 2 7).length = updateCount t3root 2 ∧
      updateCount t3root 2 ≤ Nat.clog 2 (3 : Int).toNat + 1 ∧
      ∀ u ∈ (_update t3root 2 7).subtrees,
        u ∈ newNodes t3root 2 7 ∨ u ∈ t3root.subtrees :=
  C6_sharing_amended 3 t3root 2 7
    (partitionChk_sound t3root 0 ((3 : Int) - 1) (by decide))

/-- Claim C6 counterexample: the tree of size 3 (freshly built, so `t3root`
is its version-0 root) updated at index 2 allocates 2 nodes, not
`⌈log2 3⌉ + 1 = 3` as the claim requires for every index. -/
theorem C6_counterexample :
    PersistentSegmentTree.initF Nat 4 3 = some ⟨3, [t3root]⟩ ∧
      updateCount t3root 2 = 2 ∧ Nat.clog 2 3 + 1 = 3 := by
  refine ⟨by decide, by decide, ?_⟩
  have h3 : Nat.clog 2 3 = Nat.clog 2 2 + 1 := by
    rw [Nat.clog_of_two_le (by norm_num) (by norm_num)]
  have h2 : Nat.clog 2 2 = Nat.clog 2 1 + 1 := by
    rw [Nat.clog_of_two_le (by norm_num) (by norm_num)]
  rw [h3, h2, Nat.clog_one_right]

/-- Claim C7 (amended): `get_branch_result(version, idx)` performs no
slot-count bookkeeping and has no NotFound outcome: for a valid version it
returns the leaf value at `idx` — the stored value if that slot was written
on the version's ancestry, the unset sentinel otherwise, whether or not the
slot was ever allocated — and for `idx` outside `[0, size)` the single-point
query is empty and the element access `[0]` raises IndexError. -/
theorem C7_get_branch_result_amended {π β : Type}
    (m : FlightSearchBranchManager π β) (v idx : Int)
    (root : PersistentSegmentTreeNode β) (w : Option β)
    (hwf : TreeWF m.tree) (hp : pyIndex m.tree.versions v = some root) :
    ((idx, w) ∈ root.leaves → m.get_branch_result v idx = some w) ∧
      ((idx < 0 ∨ m.tree.size ≤ idx) →
        m.get_branch_result v idx = none) := by
  have hroot := hwf root (pyIndex_mem hp)
  constructor
  · intro hmem
    unfold FlightSearchBranchManager.get_branch_result
    rw [query_eq_some hp, _query_point hroot idx w hmem]
    rfl
  · intro hout
    unfold FlightSearchBranchManager.get_branch_result
    have hnil : (root.leaves.filter fun p =>
        decide (idx ≤ p.1 ∧ p.1 ≤ idx)) = [] := by
      rw [List.filter_eq_nil_iff]
      intro q hq2
      have hb := mem_leaves_bounds hroot hq2
      simp only [decide_eq_true_eq]
      omega
    rw [query_eq_some hp, _query_eq_filter hroot, hnil]
    rfl

/-- Claim C7 witness: after one branch, reading slot 0 of version 1
returns the stored result 10. -/
theorem C7_get_branch_result_amended_witness :
    mgr1.get_branch_result 1 0 = some (some 10) :=
  (C7_get_branch_result_amended mgr1 1 0
    (.node 0 1 none (.leaf 0 0 (some 10)) (.leaf 1 1 none)) (some 10)
    (treeWF_of_chk (by decide)) (by decide)).1 (by decide)

/-- Claim C7 counterexample: on the fresh manager no slot was ever
allocated (`next_idx = 0`), yet `get_branch_result(0, 0)` and
`get_branch_result(0, 1)` return the unset sentinel — indistinguishable
from an allocated-but-unwritten slot, with no NotFound — while the
never-allocated `idx = 5` beyond the tree raises IndexError instead. -/
theorem C7_counterexample :
    mgr0.get_branch_result 0 0 = some none ∧
      mgr0.get_branch_result 0 1 = some none ∧
      mgr0.get_branch_result 0 5 = none := by
  decide
